import Mathlib

set_option maxHeartbeats 1000000

/-! Verification development for the ELL embedded value DSL core and the SDCA
trainer step. The DSL implementation (MemoryLayout, EmitterContext and its two
backends, typed views, control-construct builders) is not part of the source
excerpt — only its test suite is — so those components are modelled from the
specification text; the SDCA trainer step is embedded directly from the
source header. -/

/-- Modelled from the spec: `MemoryLayout` (spec section 3) — an ordered
sequence of logical dimension extents, a permutation mapping logical dimension
index to physical (storage) dimension index, per-physical-dimension strides in
elements, and a base offset. The MemoryLayout implementation file is missing
from the excerpt; only its tests are present. -/
structure MemoryLayout where
  extents : List ℕ
  perm : List ℕ
  strides : List ℤ
  base : ℤ
deriving Repr, DecidableEq

/-- Rank of a layout: the number of logical dimensions. -/
def MemoryLayout.rank (l : MemoryLayout) : ℕ := l.extents.length

/-- Modelled from the spec: strides, if not explicitly supplied, default to the
row-major contiguous layout implied by the physical extents — the stride of a
physical dimension is the product of all later physical extents. -/
def rowMajorStrides : List ℕ → List ℤ
  | [] => []
  | _ :: es => ((es.prod : ℕ) : ℤ) :: rowMajorStrides es

/-- Modelled from the spec: the linear offset for a logical index vector `idx`
is `base + Σ_d idx[d] * stride[permutation[d]]`. -/
def MemoryLayout.linearOffset (l : MemoryLayout) (idx : List ℤ) : ℤ :=
  l.base + (List.zipWith (fun i p => i * l.strides.getD p 0) idx l.perm).sum

/-- Modelled from the spec: constructing a layout from physical extents and a
dimension-order permutation — the logical extent of dimension `d` is the
physical extent of the physical dimension the permutation assigns to `d`,
strides default to row-major contiguous over the physical extents, and the
base offset is zero. -/
def MemoryLayout.fromPhysical (phys : List ℕ) (perm : List ℕ) : MemoryLayout :=
  { extents := perm.map (fun p => phys.getD p 0)
    perm := perm
    strides := rowMajorStrides phys
    base := 0 }

/-- Modelled from the spec: slicing fixes one logical dimension to a constant
value, removing it from the logical shape while the base offset absorbs its
contribution and the remaining strides are unchanged. -/
def MemoryLayout.sliceAt (l : MemoryLayout) (k : ℕ) (c : ℤ) : MemoryLayout :=
  { extents := l.extents.eraseIdx k
    perm := l.perm.eraseIdx k
    strides := l.strides
    base := l.base + c * l.strides.getD (l.perm.getD k 0) 0 }

/-- Slicing at several fixed dimension positions in sequence (each position is
interpreted in the layout produced by the earlier slices). -/
def MemoryLayout.sliceMany (l : MemoryLayout) : List (ℕ × ℤ) → MemoryLayout
  | [] => l
  | (k, c) :: rest => (l.sliceAt k c).sliceMany rest

/-- Removing the fixed positions from an index vector, mirroring `sliceMany`. -/
def eraseMany (idx : List ℤ) : List (ℕ × ℤ) → List ℤ
  | [] => idx
  | (k, _) :: rest => eraseMany (idx.eraseIdx k) rest

/-- The fixed positions are all in range and the index vector holds the fixed
constants at those positions, stage by stage. -/
def fixesValid (l : MemoryLayout) (idx : List ℤ) : List (ℕ × ℤ) → Bool
  | [] => true
  | (k, c) :: rest =>
    decide (k < l.rank) && decide (idx.getD k 0 = c) &&
      fixesValid (l.sliceAt k c) (idx.eraseIdx k) rest

theorem zipWith_eraseIdx {α β γ : Type} (f : α → β → γ) :
    ∀ (k : ℕ) (a : List α) (b : List β),
      List.zipWith f (a.eraseIdx k) (b.eraseIdx k) = (List.zipWith f a b).eraseIdx k
  | _, [], _ => by simp [List.eraseIdx]
  | k, x :: a, [] => by cases k <;> simp [List.eraseIdx]
  | 0, x :: a, y :: b => by simp [List.eraseIdx]
  | (k + 1), x :: a, y :: b => by
    simp [List.eraseIdx, zipWith_eraseIdx f k a b]

theorem sum_eraseIdx_getD :
    ∀ (s : List ℤ) (k : ℕ), k < s.length → (s.eraseIdx k).sum = s.sum - s.getD k 0
  | [], k, h => by simp at h
  | x :: s, 0, _ => by simp [List.eraseIdx]
  | x :: s, (k + 1), h => by
    have hk : k < s.length := by simpa using h
    simp only [List.eraseIdx, List.sum_cons, sum_eraseIdx_getD s k hk, List.getD_cons_succ]
    ring

theorem getD_zipWith {α β γ : Type} [Inhabited γ] (f : α → β → γ) (a : List α) (b : List β)
    (da : α) (db : β) (dc : γ) (k : ℕ) (hka : k < a.length) (hkb : k < b.length) :
    (List.zipWith f a b).getD k dc = f (a.getD k da) (b.getD k db) := by
  have hlen : k < (List.zipWith f a b).length := by
    simp [List.length_zipWith]; omega
  rw [List.getD_eq_getElem _ _ hlen, List.getD_eq_getElem _ _ hka, List.getD_eq_getElem _ _ hkb]
  simp

/-- Slicing a layout at one fixed logical dimension then computing the linear
offset of the reduced index vector gives the same linear offset as the
unsliced layout at the full index vector. -/
theorem linearOffset_sliceAt (l : MemoryLayout) (k : ℕ) (idx : List ℤ)
    (hperm : l.perm.length = l.rank) (hidx : idx.length = l.rank) (hk : k < l.rank) :
    (l.sliceAt k (idx.getD k 0)).linearOffset (idx.eraseIdx k) = l.linearOffset idx := by
  unfold MemoryLayout.linearOffset MemoryLayout.sliceAt
  simp only
  rw [zipWith_eraseIdx]
  rw [sum_eraseIdx_getD _ k (by simp [List.length_zipWith]; omega)]
  rw [getD_zipWith _ idx l.perm 0 0 0 k (by omega) (by omega)]
  ring

theorem length_eraseIdx_of_lt {α : Type} (l : List α) (k : ℕ) (h : k < l.length) :
    (l.eraseIdx k).length = l.length - 1 := by
  rw [List.length_eraseIdx]
  simp [h]

/-- C2: for every MemoryLayout, every sequence of logical dimensions fixed to
constant values, and every logical index vector agreeing with those constants,
slicing the layout at the fixed positions and then computing the linear offset
of the reduced index vector yields exactly the linear offset of the unsliced
layout at the full index vector: the slice removes the fixed dimensions from
the logical shape, the base offset absorbs their contribution, and the
remaining strides are unchanged. -/
theorem C2_slice_offset_equivalence :
    ∀ (fs : List (ℕ × ℤ)) (l : MemoryLayout) (idx : List ℤ),
      l.perm.length = l.rank → idx.length = l.rank → fixesValid l idx fs = true →
      (l.sliceMany fs).linearOffset (eraseMany idx fs) = l.linearOffset idx
  | [], l, idx, _, _, _ => rfl
  | (k, c) :: rest, l, idx, hperm, hidx, hv => by
    simp only [fixesValid, Bool.and_eq_true, decide_eq_true_eq] at hv
    obtain ⟨⟨hk, hc⟩, hrest⟩ := hv
    have hstep : (l.sliceAt k c).linearOffset (idx.eraseIdx k) = l.linearOffset idx := by
      rw [← hc]
      exact linearOffset_sliceAt l k idx hperm hidx hk
    have hperm2 : (l.sliceAt k c).perm.length = (l.sliceAt k c).rank := by
      simp only [MemoryLayout.sliceAt, MemoryLayout.rank] at *
      rw [length_eraseIdx_of_lt _ _ (by omega), length_eraseIdx_of_lt _ _ (by omega)]
      omega
    have hidx2 : (idx.eraseIdx k).length = (l.sliceAt k c).rank := by
      simp only [MemoryLayout.sliceAt, MemoryLayout.rank] at *
      rw [length_eraseIdx_of_lt _ _ (by omega), length_eraseIdx_of_lt _ _ (by omega)]
      omega
    calc ((l.sliceAt k c).sliceMany rest).linearOffset (eraseMany (idx.eraseIdx k) rest)
        = (l.sliceAt k c).linearOffset (idx.eraseIdx k) :=
          C2_slice_offset_equivalence rest (l.sliceAt k c) (idx.eraseIdx k) hperm2 hidx2 hrest
      _ = l.linearOffset idx := hstep

/-- Witness for C2: slicing the channel-major 3 x 3 x 2 tensor layout of the
tests at two fixed dimensions reproduces the unsliced offset at a concrete
index vector. -/
theorem C2_slice_offset_equivalence_witness :
    ((MemoryLayout.fromPhysical [2, 3, 3] [1, 2, 0]).sliceMany [(0, 2), (1, 1)]).linearOffset
        (eraseMany [2, 1, 1] [(0, 2), (1, 1)])
      = (MemoryLayout.fromPhysical [2, 3, 3] [1, 2, 0]).linearOffset [2, 1, 1] :=
  C2_slice_offset_equivalence [(0, 2), (1, 1)] (MemoryLayout.fromPhysical [2, 3, 3] [1, 2, 0])
    [2, 1, 1] (by decide) (by decide) (by decide)

/-- In-bounds check: each coordinate is nonnegative and below its extent. -/
def inBoundsB : List ℤ → List ℕ → Bool
  | [], [] => true
  | a :: q, e :: ext => decide (0 ≤ a) && decide (a < (e : ℤ)) && inBoundsB q ext
  | _, _ => false

theorem inBoundsB_iff :
    ∀ (q : List ℤ) (p : List ℕ), inBoundsB q p = true ↔
      (q.length = p.length ∧
        ∀ i, i < p.length → 0 ≤ q.getD i 0 ∧ q.getD i 0 < (p.getD i 0 : ℤ))
  | [], [] => by simp [inBoundsB]
  | [], e :: p => by simp [inBoundsB]
  | a :: q, [] => by simp [inBoundsB]
  | a :: q, e :: p => by
    simp only [inBoundsB, Bool.and_eq_true, decide_eq_true_eq, inBoundsB_iff q p,
      List.length_cons]
    constructor
    · rintro ⟨⟨h0, h1⟩, hlen, hrest⟩
      refine ⟨by omega, ?_⟩
      intro i hi
      cases i with
      | zero => simpa using ⟨h0, h1⟩
      | succ i => simpa using hrest i (by omega)
    · rintro ⟨hlen, hall⟩
      have h0 := hall 0 (by omega)
      simp only [List.getD_cons_zero] at h0
      refine ⟨⟨h0.1, h0.2⟩, by omega, ?_⟩
      intro i hi
      simpa using hall (i + 1) (by omega)

theorem inBoundsB_length {q : List ℤ} {p : List ℕ} (h : inBoundsB q p = true) :
    q.length = p.length :=
  ((inBoundsB_iff q p).mp h).1

theorem length_rowMajorStrides : ∀ p : List ℕ, (rowMajorStrides p).length = p.length
  | [] => rfl
  | _ :: es => by simp [rowMajorStrides, length_rowMajorStrides es]

/-- The row-major linear offset of an in-bounds physical index vector lies in
`[0, product of extents)`. -/
theorem rowMajor_sum_bounds :
    ∀ (p : List ℕ) (q : List ℤ), inBoundsB q p = true →
      0 ≤ (List.zipWith (· * ·) q (rowMajorStrides p)).sum ∧
        (List.zipWith (· * ·) q (rowMajorStrides p)).sum < (p.prod : ℤ)
  | [], [], _ => by simp [rowMajorStrides]
  | [], a :: q, h => by simp [inBoundsB] at h
  | e :: p, [], h => by simp [inBoundsB] at h
  | e :: p, a :: q, h => by
    simp only [inBoundsB, Bool.and_eq_true, decide_eq_true_eq] at h
    obtain ⟨⟨h0, h1⟩, h2⟩ := h
    obtain ⟨ihl, ihr⟩ := rowMajor_sum_bounds p q h2
    simp only [rowMajorStrides, List.zipWith_cons_cons, List.sum_cons, List.prod_cons,
      Nat.cast_mul]
    have hP : (0 : ℤ) < (p.prod : ℤ) := lt_of_le_of_lt ihl ihr
    constructor
    · nlinarith [mul_nonneg h0 hP.le]
    · nlinarith [mul_le_mul_of_nonneg_right (by omega : a + 1 ≤ (e : ℤ)) hP.le]

/-- Mixed-radix uniqueness: two in-bounds physical index vectors with the same
row-major linear offset are equal. -/
theorem rowMajor_sum_inj :
    ∀ (p : List ℕ) (q q' : List ℤ), inBoundsB q p = true → inBoundsB q' p = true →
      (List.zipWith (· * ·) q (rowMajorStrides p)).sum
        = (List.zipWith (· * ·) q' (rowMajorStrides p)).sum → q = q'
  | [], [], [], _, _, _ => rfl
  | [], a :: q, _, h, _, _ => by simp [inBoundsB] at h
  | [], [], b :: q', _, h', _ => by simp [inBoundsB] at h'
  | e :: p, [], _, h, _, _ => by simp [inBoundsB] at h
  | e :: p, a :: q, [], _, h', _ => by simp [inBoundsB] at h'
  | e :: p, a :: q, b :: q', h, h', heq => by
    simp only [inBoundsB, Bool.and_eq_true, decide_eq_true_eq] at h h'
    obtain ⟨⟨ha0, ha1⟩, hq⟩ := h
    obtain ⟨⟨hb0, hb1⟩, hq'⟩ := h'
    obtain ⟨hr0, hr1⟩ := rowMajor_sum_bounds p q hq
    obtain ⟨hs0, hs1⟩ := rowMajor_sum_bounds p q' hq'
    simp only [rowMajorStrides, List.zipWith_cons_cons, List.sum_cons] at heq
    have hP : (0 : ℤ) < (p.prod : ℤ) := lt_of_le_of_lt hr0 hr1
    have hab : a = b := by
      rcases lt_trichotomy a b with hlt | hE | hgt
      · exfalso
        have h3 : (a + 1) * (p.prod : ℤ) ≤ b * (p.prod : ℤ) :=
          mul_le_mul_of_nonneg_right (by omega) hP.le
        nlinarith
      · exact hE
      · exfalso
        have h3 : (b + 1) * (p.prod : ℤ) ≤ a * (p.prod : ℤ) :=
          mul_le_mul_of_nonneg_right (by omega) hP.le
        nlinarith
    subst hab
    have htail : (List.zipWith (· * ·) q (rowMajorStrides p)).sum
        = (List.zipWith (· * ·) q' (rowMajorStrides p)).sum := by linarith
    rw [rowMajor_sum_inj p q q' hq hq' htail]

theorem sum_zipWith_eq_range {α β : Type} (f : α → β → ℤ) (da : α) (db : β) :
    ∀ (a : List α) (b : List β),
      (List.zipWith f a b).sum
        = ∑ i ∈ Finset.range (min a.length b.length), f (a.getD i da) (b.getD i db)
  | [], b => by simp
  | x :: a, [] => by simp
  | x :: a, y :: b => by
    simp only [List.zipWith_cons_cons, List.sum_cons, List.length_cons, Nat.succ_min_succ]
    rw [Finset.sum_range_succ']
    simp only [List.getD_cons_succ, List.getD_cons_zero]
    rw [sum_zipWith_eq_range f da db a b]
    ring

theorem getD_map_range (f : ℕ → ℤ) (n i : ℕ) (h : i < n) :
    ((List.range n).map f).getD i 0 = f i := by
  rw [List.getD_eq_getElem _ _ (by simp [h])]
  simp

/-- C5: for every MemoryLayout constructed from physical extents and a valid
dimension-order permutation, the linear-offset function is injective on
in-bounds logical index vectors: two distinct in-bounds logical index vectors
have different linear offsets. -/
theorem C5_linearOffset_injective (phys perm : List ℕ)
    (hp : perm.Perm (List.range phys.length)) (idx idx' : List ℤ)
    (h1 : inBoundsB idx (MemoryLayout.fromPhysical phys perm).extents = true)
    (h2 : inBoundsB idx' (MemoryLayout.fromPhysical phys perm).extents = true)
    (hne : idx ≠ idx') :
    (MemoryLayout.fromPhysical phys perm).linearOffset idx
      ≠ (MemoryLayout.fromPhysical phys perm).linearOffset idx' := by
  intro heq
  set n := phys.length with hn
  have hplen : perm.length = n := by simpa using hp.length_eq
  have hnodup : perm.Nodup := hp.nodup_iff.mpr (List.nodup_range n)
  have hmem : ∀ i, i < n ↔ i ∈ perm := by
    intro i
    rw [hp.mem_iff, List.mem_range]
  have hextlen : (MemoryLayout.fromPhysical phys perm).extents.length = n := by
    simp [MemoryLayout.fromPhysical, hplen]
  have hidxlen : idx.length = n := (inBoundsB_length h1).trans hextlen
  have hidxlen' : idx'.length = n := (inBoundsB_length h2).trans hextlen
  have hperm_lt : ∀ d, d < n → perm.getD d 0 < n := by
    intro d hd
    rw [List.getD_eq_getElem _ _ (by omega)]
    exact (hmem _).mpr (List.getElem_mem _)
  have hidxOf_lt : ∀ i, i < n → List.indexOf i perm < n := by
    intro i hi
    rw [← hplen]
    exact List.indexOf_lt_length.mpr ((hmem i).mp hi)
  have hleft : ∀ d, d < n → List.indexOf (perm.getD d 0) perm = d := by
    intro d hd
    rw [List.getD_eq_getElem _ _ (by omega)]
    exact List.indexOf_getElem hnodup d (by omega)
  have hright : ∀ i, i < n → perm.getD (List.indexOf i perm) 0 = i := by
    intro i hi
    rw [List.getD_eq_getElem _ _ (by rw [hplen]; exact hidxOf_lt i hi)]
    exact List.getElem_indexOf (by rw [hplen]; exact hidxOf_lt i hi)
  have hstlen : (rowMajorStrides phys).length = n := length_rowMajorStrides phys
  have hextgetD : ∀ j, j < n →
      (MemoryLayout.fromPhysical phys perm).extents.getD j 0 = phys.getD (perm.getD j 0) 0 := by
    intro j hj
    have hjp : j < perm.length := by omega
    have hg : perm.getD j 0 = perm[j] := List.getD_eq_getElem _ _ hjp
    simp only [MemoryLayout.fromPhysical]
    rw [List.getD_eq_getElem _ _ (by simp [hplen, hj]), List.getElem_map, hg]
  have key : ∀ v : List ℤ, v.length = n →
      (MemoryLayout.fromPhysical phys perm).linearOffset v
        = (List.zipWith (· * ·)
            ((List.range n).map (fun i => v.getD (List.indexOf i perm) 0))
            (rowMajorStrides phys)).sum := by
    intro v hv
    simp only [MemoryLayout.linearOffset, MemoryLayout.fromPhysical, zero_add]
    rw [sum_zipWith_eq_range _ 0 0, sum_zipWith_eq_range _ 0 0]
    rw [hv, hplen, min_self]
    rw [List.length_map, List.length_range, hstlen, min_self]
    refine Finset.sum_nbij' (fun d => perm.getD d 0) (fun i => List.indexOf i perm)
      ?_ ?_ ?_ ?_ ?_
    · intro d hd
      simp only [Finset.mem_range] at hd ⊢
      exact hperm_lt d hd
    · intro i hi
      simp only [Finset.mem_range] at hi ⊢
      exact hidxOf_lt i hi
    · intro d hd
      simp only [Finset.mem_range] at hd
      exact hleft d hd
    · intro i hi
      simp only [Finset.mem_range] at hi
      exact hright i hi
    · intro d hd
      simp only [Finset.mem_range] at hd
      rw [getD_map_range _ _ _ (hperm_lt d hd), hleft d hd]
  have hbounds : ∀ v : List ℤ, inBoundsB v (MemoryLayout.fromPhysical phys perm).extents = true →
      inBoundsB ((List.range n).map (fun i => v.getD (List.indexOf i perm) 0)) phys = true := by
    intro v hv
    obtain ⟨hvl, hvb⟩ := (inBoundsB_iff _ _).mp hv
    rw [inBoundsB_iff]
    constructor
    · simp [hn]
    · intro i hi
      rw [← hn] at hi
      rw [getD_map_range _ _ _ hi]
      have hb := hvb (List.indexOf i perm) (by rw [hextlen]; exact hidxOf_lt i hi)
      rw [hextgetD _ (hidxOf_lt i hi), hright i hi] at hb
      exact hb
  have hqeq : ((List.range n).map (fun i => idx.getD (List.indexOf i perm) 0))
      = ((List.range n).map (fun i => idx'.getD (List.indexOf i perm) 0)) := by
    apply rowMajor_sum_inj phys _ _ (hbounds idx h1) (hbounds idx' h2)
    rw [← key idx hidxlen, ← key idx' hidxlen', heq]
  apply hne
  apply List.ext_getElem (by rw [hidxlen, hidxlen'])
  intro d hd1 hd2
  have hdn : d < n := by omega
  have hval : idx.getD d 0 = idx'.getD d 0 := by
    have h3 := congrArg (fun w => List.getD w (perm.getD d 0) (0 : ℤ)) hqeq
    simp only at h3
    rw [getD_map_range _ _ _ (hperm_lt d hdn), getD_map_range _ _ _ (hperm_lt d hdn),
      hleft d hdn] at h3
    exact h3
  rw [List.getD_eq_getElem _ _ hd1, List.getD_eq_getElem _ _ hd2] at hval
  exact hval

/-- Witness for C5: in the 2 x 3 row-major-permuted layout, the distinct
in-bounds index vectors produce distinct offsets. -/
theorem C5_linearOffset_injective_witness :
    (MemoryLayout.fromPhysical [2, 3] [1, 0]).linearOffset [0, 1]
      ≠ (MemoryLayout.fromPhysical [2, 3] [1, 0]).linearOffset [1, 0] :=
  C5_linearOffset_injective [2, 3] [1, 0] (by decide) [0, 1] [1, 0]
    (by decide) (by decide) (by decide)

/-- Modelled from the spec: the structured loop enumerates the logical index
vectors of its container in lexicographic order with the last logical
dimension varying fastest (row-major enumeration); the outermost level
corresponds to the first logical dimension. -/
def loopIndices : List ℕ → List (List ℤ)
  | [] => [[]]
  | e :: es => (List.range e).flatMap (fun i => (loopIndices es).map (fun rest => (i : ℤ) :: rest))

/-- Modelled from the spec: ComputeContext physically invokes the loop body
once per index tuple, in enumeration order, synchronously. -/
def computeFor {σ : Type} (shape : List ℕ) (body : List ℤ → σ → σ) (s : σ) : σ :=
  (loopIndices shape).foldl (fun acc idx => body idx acc) s

/-- Strict lexicographic order on index vectors. -/
def lexLt (a b : List ℤ) : Prop := List.Lex (· < ·) a b

theorem mem_loopIndices_cons {e : ℕ} {es : List ℕ} {x : List ℤ} :
    x ∈ loopIndices (e :: es) ↔ ∃ i, i < e ∧ ∃ r ∈ loopIndices es, x = (i : ℤ) :: r := by
  simp only [loopIndices, List.mem_flatMap, List.mem_map, List.mem_range]
  constructor
  · rintro ⟨i, hi, r, hr, rfl⟩
    exact ⟨i, hi, r, hr, rfl⟩
  · rintro ⟨i, hi, r, hr, rfl⟩
    exact ⟨i, hi, r, hr, rfl⟩

theorem loopIndices_pairwise : ∀ shape : List ℕ, (loopIndices shape).Pairwise lexLt
  | [] => by simp [loopIndices]
  | e :: es => by
    have hes := loopIndices_pairwise es
    induction e with
    | zero => simp [loopIndices]
    | succ m ih =>
      have hstep : loopIndices ((m + 1) :: es)
          = loopIndices (m :: es) ++ (loopIndices es).map (fun rest => (m : ℤ) :: rest) := by
        simp only [loopIndices]
        rw [List.range_succ, List.flatMap_append]
        simp [List.flatMap_cons]
      rw [hstep, List.pairwise_append]
      refine ⟨ih, ?_, ?_⟩
      · rw [List.pairwise_map]
        exact hes.imp (fun h => List.Lex.cons h)
      · intro a ha b hb
        obtain ⟨i, hi, r, _, rfl⟩ := mem_loopIndices_cons.mp ha
        obtain ⟨r', _, rfl⟩ := List.mem_map.mp hb
        exact List.Lex.rel (by exact_mod_cast hi)

theorem loopIndices_length : ∀ shape : List ℕ, (loopIndices shape).length = shape.prod
  | [] => rfl
  | e :: es => by
    have hes := loopIndices_length es
    induction e with
    | zero => simp [loopIndices]
    | succ m ih =>
      have hstep : loopIndices ((m + 1) :: es)
          = loopIndices (m :: es) ++ (loopIndices es).map (fun rest => (m : ℤ) :: rest) := by
        simp only [loopIndices]
        rw [List.range_succ, List.flatMap_append]
        simp [List.flatMap_cons]
      rw [hstep, List.length_append, ih, List.length_map, hes]
      simp [List.prod_cons]
      ring

theorem flatMap_singleton_map {α β : Type} (f : α → β) :
    ∀ l : List α, (l.flatMap fun x => [f x]) = l.map f
  | [] => rfl
  | x :: l => by simp [List.flatMap_cons, flatMap_singleton_map f l]

theorem loopIndices_rank1 (n : ℕ) :
    loopIndices [n] = (List.range n).map (fun i : ℕ => [(i : ℤ)]) := by
  simp only [loopIndices, List.map_cons, List.map_nil]
  exact flatMap_singleton_map _ _

theorem foldl_append_trace {α : Type} :
    ∀ (l : List α) (acc : List α), l.foldl (fun acc x => acc ++ [x]) acc = acc ++ l
  | [], acc => by simp
  | x :: l, acc => by
    simp only [List.foldl_cons, foldl_append_trace l]
    simp

/-- C3: the structured loop enumerates the logical index vectors of its
container in strictly increasing lexicographic order with the last logical
dimension varying fastest; for every rank-1 container of size N the body is
invoked exactly N times, with index values 0, 1, ..., N-1 in that order (the
invocation trace of `computeFor` is exactly the enumeration). -/
theorem C3_structured_loop_order :
    (∀ shape : List ℕ, (loopIndices shape).Pairwise lexLt) ∧
      (∀ n : ℕ, loopIndices [n] = (List.range n).map fun i : ℕ => [(i : ℤ)]) ∧
      (∀ shape : List ℕ, (loopIndices shape).length = shape.prod) ∧
      (∀ shape : List ℕ,
        computeFor shape (fun idx trace => trace ++ [idx]) ([] : List (List ℤ))
          = loopIndices shape) :=
  ⟨loopIndices_pairwise, loopIndices_rank1, loopIndices_length, fun shape => by
    unfold computeFor
    rw [foldl_append_trace]
    simp⟩

/-- Modelled from the spec: the conditional chain tests conditions in
declaration order; the first true condition yields the only executed body; if
none match and an Else is present it executes unconditionally; if none match
and no Else exists, no body executes. `runChain` returns the list of bodies
executed, in execution order. -/
def runChain {α : Type} : List (Bool × α) → Option α → List α
  | [], els => els.toList
  | (c, b) :: rest, els => if c then [b] else runChain rest els

/-- Executing the chain under ComputeContext: apply every executed body (at
most one) to the state. -/
def execChain {σ : Type} (branches : List (Bool × (σ → σ))) (els : Option (σ → σ)) (s : σ) : σ :=
  (runChain branches els).foldl (fun st b => b st) s

theorem runChain_eq_find {α : Type} :
    ∀ (branches : List (Bool × α)) (els : Option α),
      runChain branches els
        = (match branches.find? (fun cb => cb.1) with
            | some cb => [cb.2]
            | none => els.toList)
  | [], els => rfl
  | (c, b) :: rest, els => by
    cases c with
    | true => simp [runChain, List.find?]
    | false => simpa [runChain, List.find?] using runChain_eq_find rest els

theorem runChain_length_le_one {α : Type} :
    ∀ (branches : List (Bool × α)) (els : Option α), (runChain branches els).length ≤ 1
  | [], els => by cases els <;> simp [runChain]
  | (c, b) :: rest, els => by
    cases c with
    | true => simp [runChain]
    | false => simpa [runChain] using runChain_length_le_one rest els

/-- C4: for the chain If(c1,b1).ElseIf(c2,b2).Else(b3), if c1 is true only b1
executes; if c1 is false and c2 is true only b2 executes; if both are false
only b3 executes. In general conditions are tested in declaration order, the
first true condition yields the only executed body, if no condition matches
and no Else exists no body executes, and never more than one body executes. -/
theorem C4_conditional_chain :
    (∀ (α : Type) (c1 c2 : Bool) (b1 b2 b3 : α),
      runChain [(c1, b1), (c2, b2)] (some b3)
        = if c1 then [b1] else if c2 then [b2] else [b3]) ∧
      (∀ (α : Type) (branches : List (Bool × α)) (els : Option α),
        runChain branches els
          = (match branches.find? (fun cb => cb.1) with
              | some cb => [cb.2]
              | none => els.toList)) ∧
      (∀ (α : Type) (branches : List (Bool × α)), runChain branches none = []
        ∨ ∃ b : α, runChain branches none = [b]) ∧
      (∀ (α : Type) (branches : List (Bool × α)) (els : Option α),
        (runChain branches els).length ≤ 1) ∧
      (∀ (σ : Type) (c1 c2 : Bool) (b1 b2 b3 : σ → σ) (s : σ),
        execChain [(c1, b1), (c2, b2)] (some b3) s
          = if c1 then b1 s else if c2 then b2 s else b3 s) := by
  refine ⟨?_, fun α => runChain_eq_find, ?_, fun α => runChain_length_le_one, ?_⟩
  · intro α c1 c2 b1 b2 b3
    cases c1 <;> cases c2 <;> simp [runChain]
  · intro α branches
    have h := runChain_length_le_one branches (none : Option α)
    cases hr : runChain branches (none : Option α) with
    | nil => exact Or.inl rfl
    | cons x l =>
      rw [hr] at h
      simp at h
      right
      exact ⟨x, by rw [h]⟩
  · intro σ c1 c2 b1 b2 b3 s
    cases c1 <;> cases c2 <;> simp [execChain, runChain]

/-- Modelled from the spec: ComputeContext state — host-addressable storage
cells (numeric values modelled as rationals) plus a module-global table keyed
by name. -/
structure ComputeState where
  heap : List ℚ
  globals : List (String × ℕ)
deriving Repr, DecidableEq

/-- Modelled from the spec: `Allocate` — scoped, transient storage; returns
the updated state and the address of the first freshly appended cell. -/
def allocate (s : ComputeState) (vals : List ℚ) : ComputeState × ℕ :=
  ({ s with heap := s.heap ++ vals }, s.heap.length)

/-- Modelled from the spec: `GlobalAllocate(name, type, initial)` — persistent
process-lifetime storage identified by name: a second allocation under the
same name yields the same storage; otherwise a fresh cell holding the initial
value is created and recorded in the module-global table. -/
def globalAllocate (s : ComputeState) (name : String) (init : ℚ) : ComputeState × ℕ :=
  match s.globals.lookup name with
  | some addr => (s, addr)
  | none =>
    ({ heap := s.heap ++ [init], globals := (name, s.heap.length) :: s.globals }, s.heap.length)

/-- Reading a storage cell. -/
def readHeap (s : ComputeState) (a : ℕ) : ℚ := s.heap.getD a 0

/-- Writing a storage cell. -/
def writeHeap (s : ComputeState) (a : ℕ) (v : ℚ) : ComputeState :=
  { s with heap := s.heap.set a v }

/-- Truncating conversion of a rational to an integer (rounding toward zero,
as a C-style floating-to-integer cast does). -/
def ratTrunc (q : ℚ) : ℤ := q.num / (q.den : ℤ)

/-- Modelled from the spec: `Cast` performs a truncating conversion; under
ComputeContext the result is backed by fresh storage, not aliasing the
operand. -/
def castToInt (s : ComputeState) (a : ℕ) : ComputeState × ℕ :=
  allocate s [((ratTrunc (readHeap s a) : ℤ) : ℚ)]

/-- The `+=` operation on a storage cell. -/
def incrementAt (s : ComputeState) (a : ℕ) (d : ℚ) : ComputeState :=
  writeHeap s a (readHeap s a + d)

/-- C6: GlobalAllocate is idempotent with respect to its name — a second
GlobalAllocate call under the same name yields the same storage as the first:
the state is unchanged and the returned address aliases the first storage
location. -/
theorem C6_globalAllocate_idempotent (s : ComputeState) (name : String) (init : ℚ) :
    globalAllocate (globalAllocate s name init).1 name init = globalAllocate s name init := by
  unfold globalAllocate
  cases h : s.globals.lookup name with
  | some addr => simp [h]
  | none => simp [h, List.lookup]

theorem getD_append_len {α : Type} (d : α) :
    ∀ (l : List α) (a : α) (rest : List α), (l ++ a :: rest).getD l.length d = a
  | [], _, _ => rfl
  | _ :: l, a, rest => getD_append_len d l a rest

theorem getD_append_len_succ {α : Type} (d : α) :
    ∀ (l : List α) (a b : α) (rest : List α),
      (l ++ a :: b :: rest).getD (l.length + 1) d = b
  | [], _, _, _ => rfl
  | _ :: l, a, b, rest => getD_append_len_succ d l a b rest

theorem set_append_len {α : Type} :
    ∀ (l : List α) (a b : α) (rest : List α), (l ++ a :: rest).set l.length b = l ++ b :: rest
  | [], a, b, rest => rfl
  | x :: l, a, b, rest => by
    simp only [List.cons_append, List.length_cons, List.set_cons_succ,
      set_append_len l a b rest]

theorem set_append_len_succ {α : Type} :
    ∀ (l : List α) (a b c : α) (rest : List α),
      (l ++ a :: b :: rest).set (l.length + 1) c = l ++ a :: c :: rest
  | [], a, b, c, rest => rfl
  | x :: l, a, b, c, rest => by
    simp only [List.cons_append, List.length_cons, List.set_cons_succ,
      set_append_len_succ l a b c rest]

/-- C7: casting a floating value to an integer and separately globally
allocating an integer initialized to the same constant (the truncated value),
then incrementing both by the same amount, keeps the two storage cells equal:
global storage behaves like ordinary integer storage under increment. -/
theorem C7_cast_global_equal_increment (s : ComputeState) (fa : ℕ) (name : String) (d : ℚ)
    (hname : s.globals.lookup name = none) :
    readHeap
        (incrementAt
          (incrementAt
            (globalAllocate (castToInt s fa).1 name ((ratTrunc (readHeap s fa) : ℤ) : ℚ)).1
            (castToInt s fa).2 d)
          (globalAllocate (castToInt s fa).1 name ((ratTrunc (readHeap s fa) : ℤ) : ℚ)).2 d)
        (castToInt s fa).2
      = readHeap
          (incrementAt
            (incrementAt
              (globalAllocate (castToInt s fa).1 name ((ratTrunc (readHeap s fa) : ℤ) : ℚ)).1
              (castToInt s fa).2 d)
            (globalAllocate (castToInt s fa).1 name ((ratTrunc (readHeap s fa) : ℤ) : ℚ)).2 d)
          (globalAllocate (castToInt s fa).1 name ((ratTrunc (readHeap s fa) : ℤ) : ℚ)).2 := by
  set v : ℚ := ((ratTrunc (readHeap s fa) : ℤ) : ℚ) with hv
  have hcast : castToInt s fa = ({ heap := s.heap ++ [v], globals := s.globals }, s.heap.length) :=
    rfl
  rw [hcast]
  unfold globalAllocate
  simp only [hname]
  simp only [incrementAt, readHeap, writeHeap, List.append_assoc, List.singleton_append,
    List.length_append, List.length_singleton]
  rw [getD_append_len]
  rw [set_append_len]
  rw [getD_append_len_succ]
  rw [set_append_len_succ]
  rw [getD_append_len, getD_append_len_succ]

/-- Witness for C7: concrete instance with one float cell 2.5, global name
fresh, increment 1. -/
theorem C7_cast_global_equal_increment_witness :
    readHeap
        (incrementAt
          (incrementAt
            (globalAllocate (castToInt ⟨[(5 : ℚ) / 2], []⟩ 0).1 "global"
              ((ratTrunc (readHeap ⟨[(5 : ℚ) / 2], []⟩ 0) : ℤ) : ℚ)).1
            (castToInt ⟨[(5 : ℚ) / 2], []⟩ 0).2 1)
          (globalAllocate (castToInt ⟨[(5 : ℚ) / 2], []⟩ 0).1 "global"
            ((ratTrunc (readHeap ⟨[(5 : ℚ) / 2], []⟩ 0) : ℤ) : ℚ)).2 1)
        (castToInt ⟨[(5 : ℚ) / 2], []⟩ 0).2
      = readHeap
          (incrementAt
            (incrementAt
              (globalAllocate (castToInt ⟨[(5 : ℚ) / 2], []⟩ 0).1 "global"
                ((ratTrunc (readHeap ⟨[(5 : ℚ) / 2], []⟩ 0) : ℤ) : ℚ)).1
              (castToInt ⟨[(5 : ℚ) / 2], []⟩ 0).2 1)
            (globalAllocate (castToInt ⟨[(5 : ℚ) / 2], []⟩ 0).1 "global"
              ((ratTrunc (readHeap ⟨[(5 : ℚ) / 2], []⟩ 0) : ℤ) : ℚ)).2 1)
          (globalAllocate (castToInt ⟨[(5 : ℚ) / 2], []⟩ 0).1 "global"
            ((ratTrunc (readHeap ⟨[(5 : ℚ) / 2], []⟩ 0) : ℤ) : ℚ)).2 :=
  C7_cast_global_equal_increment ⟨[(5 : ℚ) / 2], []⟩ 0 "global" 1 (by decide)

/-- The Casting_test1 scenario: a float Vector [1, 2, 3]; floatScalar is the
aliasing view of element 1 (the address computed through the rank-1 layout);
intScalar is Cast of floatScalar (fresh storage); globalIntScalar is a global
allocated under a fresh name with initial value 3; then intScalar += 1 and
floatScalar += 10. -/
def castingVec : ComputeState × ℕ := allocate ⟨[], []⟩ [1, 2, 3]

/-- Address of floatScalar: vector base plus the layout offset of index 1. -/
def castingFloatAddr : ℕ :=
  castingVec.2 + ((MemoryLayout.fromPhysical [3] [0]).linearOffset [1]).toNat

/-- intScalar: cast of the float element into fresh integer storage. -/
def castingCast : ComputeState × ℕ := castToInt castingVec.1 castingFloatAddr

/-- globalIntScalar: GlobalAllocate("global", 3). -/
def castingGlobal : ComputeState × ℕ := globalAllocate castingCast.1 "global" 3

/-- Final state after intScalar += 1 and floatScalar += 10. -/
def castingFinal : ComputeState :=
  incrementAt (incrementAt castingGlobal.1 castingCast.2 1) castingFloatAddr 10

/-- C9: Cast returns fresh storage that does not alias its operand, while
Vector indexing yields an aliasing view: at the end of the Casting_test1
scenario intScalar is 3 (untouched by the float increment), it equals the
global integer, and floatScalar and the vector element it aliases are both
12. -/
theorem C9_cast_no_alias :
    readHeap castingFinal castingCast.2 = 3 ∧
      readHeap castingFinal castingCast.2 = readHeap castingFinal castingGlobal.2 ∧
      readHeap castingFinal castingFloatAddr = 12 ∧
      readHeap castingFinal (castingVec.2 + 1) = 12 := by
  norm_num [castingFinal, castingGlobal, castingCast, castingVec, castingFloatAddr,
    incrementAt, readHeap, writeHeap, globalAllocate, castToInt, allocate, ratTrunc,
    MemoryLayout.linearOffset, MemoryLayout.fromPhysical, rowMajorStrides, List.lookup,
    List.set, List.getD, List.get?]

/-- Modelled from the spec: address expressions of the DSL core — literals,
loop induction variables (innermost first), and addition (for indexing
arithmetic such as `index + filterIndex`). -/
inductive AExpr where
  | lit : ℕ → AExpr
  | ivar : ℕ → AExpr
  | add : AExpr → AExpr → AExpr
deriving Repr, DecidableEq

/-- Modelled from the spec: data expressions — numeric literals, reads from
storage, addition and multiplication (numeric values modelled as rationals,
with no reordering of reductions). -/
inductive DExpr where
  | lit : ℚ → DExpr
  | read : AExpr → DExpr
  | add : DExpr → DExpr → DExpr
  | mul : DExpr → DExpr → DExpr
deriving Repr, DecidableEq

/-- Modelled from the spec: boolean comparison expressions. -/
inductive BExpr where
  | beq : DExpr → DExpr → BExpr
  | blt : DExpr → DExpr → BExpr
deriving Repr, DecidableEq

/-- Modelled from the spec: algorithm bodies of the DSL — stores, sequencing,
the structured loop construct (static trip count, body parameterized by the
induction variable), and the structured conditional. -/
inductive Stmt where
  | skip : Stmt
  | store : AExpr → DExpr → Stmt
  | seq : Stmt → Stmt → Stmt
  | forN : ℕ → Stmt → Stmt
  | cond : BExpr → Stmt → Stmt → Stmt
deriving Repr, DecidableEq

/-- Evaluation of address expressions under a loop-variable environment. -/
def aeval (env : List ℕ) : AExpr → ℕ
  | .lit n => n
  | .ivar k => env.getD k 0
  | .add a b => aeval env a + aeval env b

/-- Evaluation of data expressions against host memory. -/
def deval (env : List ℕ) (h : ℕ → ℚ) : DExpr → ℚ
  | .lit q => q
  | .read a => h (aeval env a)
  | .add a b => deval env h a + deval env h b
  | .mul a b => deval env h a * deval env h b

/-- Evaluation of comparisons. -/
def beval (env : List ℕ) (h : ℕ → ℚ) : BExpr → Bool
  | .beq a b => deval env h a == deval env h b
  | .blt a b => decide (deval env h a < deval env h b)

/-- Host memory update. -/
def hstore (h : ℕ → ℚ) (a : ℕ) (v : ℚ) : ℕ → ℚ :=
  fun x => if x = a then v else h x

/-- Modelled from the spec: ComputeContext — executes every primitive eagerly
against host memory; the structured loop physically invokes the body once per
index, in order; exactly one conditional branch executes. -/
def exec (env : List ℕ) : Stmt → (ℕ → ℚ) → (ℕ → ℚ)
  | .skip, h => h
  | .store a d, h => hstore h (aeval env a) (deval env h d)
  | .seq s1 s2, h => exec env s2 (exec env s1 h)
  | .forN n body, h => (List.range n).foldl (fun hh i => exec (i :: env) body hh) h
  | .cond b s1 s2, h => if beval env h b then exec env s1 h else exec env s2 h

/-- Modelled from the spec: the IR built by CodegenContext — a block is a list
of instructions; a structured loop emits one loop construct holding its body
block exactly once (not unrolled); a conditional emits a branch construct with
one block per arm. -/
inductive Instr where
  | istore : AExpr → DExpr → Instr
  | iloop : ℕ → List Instr → Instr
  | ibr : BExpr → List Instr → List Instr → Instr

mutual
/-- Deferred execution of one emitted instruction (the generated code at its
own runtime). -/
def execInstr (env : List ℕ) : Instr → (ℕ → ℚ) → (ℕ → ℚ)
  | .istore a d, h => hstore h (aeval env a) (deval env h d)
  | .iloop n body, h => (List.range n).foldl (fun hh i => execBlock (i :: env) body hh) h
  | .ibr b t e, h => if beval env h b then execBlock env t h else execBlock env e h

/-- Deferred execution of an emitted block. -/
def execBlock (env : List ℕ) : List Instr → (ℕ → ℚ) → (ℕ → ℚ)
  | [], h => h
  | i :: rest, h => execBlock env rest (execInstr env i h)
end

/-- Modelled from the spec: CodegenContext — never executes; appends
instructions for each primitive and instantiates each loop or branch body
exactly once. -/
def compile : Stmt → List Instr
  | .skip => []
  | .store a d => [.istore a d]
  | .seq s1 s2 => compile s1 ++ compile s2
  | .forN n body => [.iloop n (compile body)]
  | .cond b s1 s2 => [.ibr b (compile s1) (compile s2)]

theorem execBlock_append :
    ∀ (l1 l2 : List Instr) (env : List ℕ) (h : ℕ → ℚ),
      execBlock env (l1 ++ l2) h = execBlock env l2 (execBlock env l1 h)
  | [], l2, env, h => rfl
  | i :: l1, l2, env, h => execBlock_append l1 l2 env (execInstr env i h)

theorem foldl_congr_fun {σ : Type} (f g : σ → ℕ → σ) (hfg : ∀ s i, f s i = g s i) :
    ∀ (l : List ℕ) (s : σ), l.foldl f s = l.foldl g s
  | [], s => rfl
  | i :: l, s => by
    rw [List.foldl_cons, List.foldl_cons, hfg, foldl_congr_fun f g hfg l]

/-- Compiling a body and then running the emitted IR computes the same heap as
eager execution. -/
theorem execBlock_compile :
    ∀ (st : Stmt) (env : List ℕ) (h : ℕ → ℚ), execBlock env (compile st) h = exec env st h
  | .skip, env, h => rfl
  | .store a d, env, h => rfl
  | .seq s1 s2, env, h => by
    simp only [compile, exec]
    rw [execBlock_append, execBlock_compile s1, execBlock_compile s2]
  | .forN n body, env, h => by
    simp only [compile, exec, execBlock, execInstr]
    exact foldl_congr_fun _ _ (fun hh i => execBlock_compile body (i :: env) hh) (List.range n) h
  | .cond b s1 s2, env, h => by
    simp only [compile, exec, execBlock, execInstr]
    cases hb : beval env h b with
    | true => simp [hb, execBlock_compile s1]
    | false => simp [hb, execBlock_compile s2]

/-- C1: for every algorithm body (none of which depends on the active
backend), executing it eagerly under the compute backend and compiling it to
the IR and then invoking the result produce identical final memories for the
same inputs — values are modelled exactly (rationals), so equality is exact
with no reordering of reductions. -/
theorem C1_compute_codegen_equivalence :
    ∀ (st : Stmt) (env : List ℕ) (h : ℕ → ℚ),
      execBlock env (compile st) h = exec env st h :=
  fun st env h => execBlock_compile st env h

/-- The result size computed by testConvolve1D: signal size - filter size + 1. -/
def resultSize (n m : ℕ) : ℕ := n - m + 1

/-- Inner body of testConvolve1D: accum += filter(filterIndex) * signal(index
+ filterIndex). Memory plan: signal at 0..15, filter at 16..18, result at
19..32, accum at 33; innermost induction variable is filterIndex, the next is
index. -/
def convInner : Stmt :=
  .store (.lit 33)
    (.add (.read (.lit 33))
      (.mul (.read (.add (.lit 16) (.ivar 0)))
        (.read (.add (.ivar 1) (.ivar 0)))))

/-- Outer body of testConvolve1D: fresh accum = 0; the inner loop over the
filter; result(index) = accum. -/
def convOuter : Stmt :=
  .seq (.store (.lit 33) (.lit 0))
    (.seq (.forN 3 convInner)
      (.store (.add (.lit 19) (.ivar 0)) (.read (.lit 33))))

/-- testConvolve1D for a length-16 signal and the 3-tap kernel, written in the
structured-loop DSL. -/
def convolveStmt : Stmt := .forN (resultSize 16 3) convOuter

/-- Initial memory: the signal in cells 0..15, the kernel [1/4, 1/2, 1/4] in
cells 16..18, zeros elsewhere (result region and accum). -/
def convHeap (signal : ℕ → ℚ) : ℕ → ℚ :=
  fun a =>
    if a < 16 then signal a
    else if a = 16 then 1 / 4
    else if a = 17 then 1 / 2
    else if a = 18 then 1 / 4
    else 0

theorem hstore_ne (h : ℕ → ℚ) (a : ℕ) (v : ℚ) (x : ℕ) (hx : x ≠ a) : hstore h a v x = h x := by
  simp [hstore, hx]

theorem exec_convInner_at (env : List ℕ) (hh : ℕ → ℚ) (x : ℕ) (hx : x ≠ 33) :
    exec env convInner hh x = hh x := by
  simp only [convInner, exec, aeval]
  exact hstore_ne _ _ _ _ hx

theorem foldl_convInner_at :
    ∀ (l : List ℕ) (env : List ℕ) (hh : ℕ → ℚ) (x : ℕ), x ≠ 33 →
      (l.foldl (fun hh2 j => exec (j :: env) convInner hh2) hh) x = hh x
  | [], _, _, _, _ => rfl
  | j :: l, env, hh, x, hx => by
    rw [List.foldl_cons, foldl_convInner_at l env _ x hx, exec_convInner_at _ _ x hx]

theorem exec_convOuter_at (i : ℕ) (env : List ℕ) (hh : ℕ → ℚ) (x : ℕ)
    (hx : x ≠ 33) (hx2 : x ≠ 19 + i) : exec (i :: env) convOuter hh x = hh x := by
  have hout : exec (i :: env) convOuter hh
      = hstore
          ((List.range 3).foldl (fun hh2 j => exec (j :: i :: env) convInner hh2)
            (hstore hh 33 0))
          (19 + i)
          (((List.range 3).foldl (fun hh2 j => exec (j :: i :: env) convInner hh2)
            (hstore hh 33 0)) 33) := rfl
  rw [hout, hstore_ne _ _ _ _ hx2, foldl_convInner_at _ _ _ _ hx, hstore_ne _ _ _ _ hx]

theorem conv_result_elem_zero (signal : ℕ → ℚ) :
    exec [] convolveStmt (convHeap signal) 19
      = 1 / 4 * signal 0 + 1 / 2 * signal 1 + 1 / 4 * signal 2 := by
  have h14 : List.range (resultSize 16 3)
      = 0 :: [1, 2, 3, 4, 5, 6, 7, 8, 9, 10, 11, 12, 13] := rfl
  have hrest : ∀ (l : List ℕ), (∀ j ∈ l, 1 ≤ j) → ∀ H : ℕ → ℚ,
      (l.foldl (fun hh i => exec (i :: ([] : List ℕ)) convOuter hh) H) 19 = H 19 := by
    intro l hl
    induction l with
    | nil => intro H; rfl
    | cons j l ih =>
      intro H
      rw [List.foldl_cons, ih (fun a ha => hl a (by simp [ha]))]
      exact exec_convOuter_at j [] H 19 (by norm_num) (by have := hl j (by simp); omega)
  show (List.range (resultSize 16 3)).foldl
      (fun hh i => exec (i :: ([] : List ℕ)) convOuter hh) (convHeap signal) 19 = _
  rw [h14, List.foldl_cons, hrest _ (by decide) _]
  norm_num [convOuter, convInner, exec, aeval, deval, hstore, convHeap,
    show List.range 3 = [0, 1, 2] from rfl]

/-- C8: convolving a length-16 signal with the 3-tap kernel [1/4, 1/2, 1/4]
via the structured loop with multiply-accumulate produces a result of size
16 - 3 + 1 = 14 whose element 0 equals 1/4*signal[0] + 1/2*signal[1] +
1/4*signal[2]; and the computation gives identical results whether executed
eagerly or via the compiled path. -/
theorem C8_convolution_elem_zero :
    resultSize 16 3 = 14 ∧
      (∀ signal : ℕ → ℚ,
        exec [] convolveStmt (convHeap signal) 19
          = 1 / 4 * signal 0 + 1 / 2 * signal 1 + 1 / 4 * signal 2) ∧
      (∀ signal : ℕ → ℚ,
        execBlock [] (compile convolveStmt) (convHeap signal)
          = exec [] convolveStmt (convHeap signal)) :=
  ⟨rfl, conv_result_elem_zero, fun signal => execBlock_compile convolveStmt [] (convHeap signal)⟩

/-- The SDCA trainer parameters that Step uses. The loss function and the
regularizer are template parameters in the source (`LossFunctionType`,
`RegularizerType`), and `LinearPredictor::Predict` is defined outside the
excerpt, so all three are abstract function parameters here; numeric values
are modelled as rationals. -/
structure SDCAProblem where
  conjugateProx : ℚ → ℚ → ℚ → ℚ
  conjugateGradient : List ℚ → ℚ → List ℚ × ℚ
  predictFn : List ℚ → ℚ → List ℚ → ℚ
  invScaledReg : ℚ

/-- One training example with its metadata (weight and label, precomputed
norm2Squared, and the mutable dual variable). -/
structure SDCAExample where
  dataVector : List ℚ
  weight : ℚ
  label : ℚ
  norm2Squared : ℚ
  dualVariable : ℚ
deriving Repr, DecidableEq

/-- The mutable trainer state that Step touches: `_v`, `_d`, and the predictor
weights and bias. -/
structure SDCATrainerState where
  v : List ℚ
  d : ℚ
  weights : List ℚ
  bias : ℚ
deriving Repr, DecidableEq

/-- Vector resize: keep the existing prefix, zero-fill the tail. -/
def resizeVec (v : List ℚ) (n : ℕ) : List ℚ :=
  v.take n ++ List.replicate (n - v.length) 0

/-- `SDCATrainer::ResizeTo`: grow the predictor and `_v` when the example data
vector is longer than the predictor. -/
def ResizeTo (st : SDCATrainerState) (xSize : ℕ) : SDCATrainerState :=
  if st.weights.length < xSize then
    { st with weights := resizeVec st.weights xSize, v := resizeVec st.v xSize }
  else st

/-- `_v.Transpose() += c * dataVector`: elementwise add over the length of
`_v`. -/
def addScaled (v : List ℚ) (c : ℚ) (x : List ℚ) : List ℚ :=
  (List.range v.length).map (fun i => v.getD i 0 + c * x.getD i 0)

/-- `SDCATrainer::Step`: resize to the example, compute the lipschitz value
from norm2Squared + 1 (bias term) times the inverse scaled regularization; if
it is positive, compute the prediction and the conjugate-prox update of the
dual variable; if the dual changed, update `_v`, `_d`, the predictor (via the
regularizer conjugate gradient), and the stored dual variable. Returns the new
trainer state and the example dual variable. -/
def Step (p : SDCAProblem) (ex : SDCAExample) (st : SDCATrainerState) :
    SDCATrainerState × ℚ :=
  let st1 := ResizeTo st ex.dataVector.length
  let norm2Squared := ex.norm2Squared + 1
  let lipschitz := norm2Squared * p.invScaledReg
  let dual := ex.dualVariable
  if 0 < lipschitz then
    let prediction := p.predictFn st1.weights st1.bias ex.dataVector
    let newDual := p.conjugateProx (1 / lipschitz) (dual + prediction / lipschitz) ex.label
    let dualDiff := newDual - dual
    if dualDiff ≠ 0 then
      let v2 := addScaled st1.v (-dualDiff * p.invScaledReg) ex.dataVector
      let d2 := st1.d + (-dualDiff * p.invScaledReg)
      let wb := p.conjugateGradient v2 d2
      ({ v := v2, d := d2, weights := wb.1, bias := wb.2 }, newDual)
    else (st1, dual)
  else (st1, dual)

/-- C10: if the example data-vector prefix length is at most the predictor
size, and either the lipschitz value (norm2Squared + 1) * inverse scaled
regularization is not positive or the conjugate-prox update returns the
current dual variable (dualDiff = 0), then Step leaves all trainer state
unchanged: `_v`, `_d`, the predictor weights and bias, and the example dual
variable are exactly what they were. -/
theorem C10_step_frame (p : SDCAProblem) (ex : SDCAExample) (st : SDCATrainerState)
    (hsize : ex.dataVector.length ≤ st.weights.length)
    (hcond :
      (ex.norm2Squared + 1) * p.invScaledReg ≤ 0 ∨
        p.conjugateProx (1 / ((ex.norm2Squared + 1) * p.invScaledReg))
          (ex.dualVariable
            + p.predictFn st.weights st.bias ex.dataVector
              / ((ex.norm2Squared + 1) * p.invScaledReg)) ex.label
          = ex.dualVariable) :
    Step p ex st = (st, ex.dualVariable) := by
  have hresize : ResizeTo st ex.dataVector.length = st := by
    unfold ResizeTo
    rw [if_neg (by omega)]
  unfold Step
  simp only [hresize]
  rcases hcond with hle | heqd
  · rw [if_neg (not_lt.mpr hle)]
  · by_cases hlip : 0 < (ex.norm2Squared + 1) * p.invScaledReg
    · rw [if_pos hlip]
      simp only [heqd, sub_self, ne_eq, not_true_eq_false, if_false]
    · rw [if_neg hlip]

/-- A trivial SDCA problem instance used as the concrete witness. -/
def sdcaZeroProblem : SDCAProblem :=
  { conjugateProx := fun _ _ _ => 0
    conjugateGradient := fun _ _ => ([], 0)
    predictFn := fun _ _ _ => 0
    invScaledReg := 0 }

/-- A trivial example for the witness. -/
def sdcaZeroExample : SDCAExample :=
  { dataVector := [], weight := 1, label := 1, norm2Squared := 0, dualVariable := 0 }

/-- A trivial trainer state for the witness. -/
def sdcaZeroState : SDCATrainerState := { v := [], d := 0, weights := [], bias := 0 }

/-- Witness for C10: with zero inverse scaled regularization, the lipschitz
value is zero and Step leaves the state unchanged. -/
theorem C10_step_frame_witness :
    Step sdcaZeroProblem sdcaZeroExample sdcaZeroState = (sdcaZeroState, 0) :=
  C10_step_frame sdcaZeroProblem sdcaZeroExample sdcaZeroState
    (by simp [sdcaZeroExample, sdcaZeroState])
    (Or.inl (by norm_num [sdcaZeroProblem, sdcaZeroExample]))
